import Mathlib

/-!
Verification of the fixed-point Taylor-polynomial pipeline model
(`simulate_taylor.py`).

The development shallowly embeds the arithmetic helpers (`to_signed`,
`to_unsigned`, `fp_mul_trunc`) and the `TaylorPolyPipeline` class
(`__init__`, `reset`, `clock`) of the Python source.  Python integers are
arbitrary precision, so they are modelled by `Int`; Python's `v & ((1 << bits) - 1)`
on two's-complement arbitrary-precision integers is the nonnegative residue
modulo `2 ^ bits`, modelled by `Int.emod` with a positive modulus; Python's
`>>` on integers is an arithmetic shift, modelled by `Int`'s `>>>`
(`Int.shiftRight`).  List indexing `xs[i]` raises `IndexError` out of range,
so every indexing step in `clock` is modelled in `Option`, with `none`
standing for a raised exception.
-/

/-- `to_signed v bits` (simulate_taylor.py, lines 21-25): reinterpret an
unsigned integer as a signed two's-complement integer: if `v >= 1 << (bits-1)`
then `v - (1 << bits)` else `v`. -/
def to_signed (v : Int) (bits : Nat) : Int :=
  if 2 ^ (bits - 1) ≤ v then v - 2 ^ bits else v

/-- `to_unsigned v bits` (simulate_taylor.py, lines 28-30): mask a (possibly
negative) integer to its unsigned `bits`-wide value.  The source computes
`v & ((1 << bits) - 1)`; on Python's two's-complement arbitrary-precision
integers this is exactly the nonnegative residue of `v` modulo `2 ^ bits`,
which is what `Int.emod` with the positive modulus `2 ^ bits` returns. -/
def to_unsigned (v : Int) (bits : Nat) : Int :=
  v % 2 ^ bits

/-- `fp_mul_trunc a b data_width frac_bits` (simulate_taylor.py, lines 33-44):
exact signed product, arithmetic right shift by `frac_bits` (Python `>>`,
i.e. `Int.shiftRight`), mask to `data_width` bits, reinterpret as signed. -/
def fp_mul_trunc (a b : Int) (data_width frac_bits : Nat) : Int :=
  to_signed (to_unsigned ((a * b) >>> frac_bits) data_width) data_width

/-- The state of a `TaylorPolyPipeline` object (simulate_taylor.py,
lines 63-136): construction parameters plus the per-stage registers
`dx_r`, `acc_r`, `vld_r` (one entry per stage index `0..order`). -/
structure TaylorPolyPipeline where
  coeffs : List Int
  order : Nat
  x0 : Int
  DW : Nat
  FB : Nat
  latency : Nat
  dx_r : List Int
  acc_r : List Int
  vld_r : List Bool
deriving DecidableEq

/-- `TaylorPolyPipeline.__init__` (lines 76-87): stores the parameters,
sets `latency = order + 1` and fills the three register arrays with
`order + 1` entries of `0` / `False`.  No argument validation whatsoever
is performed. -/
def TaylorPolyPipeline.init (coeffs : List Int) (order : Nat) (x0 : Int)
    (data_width frac_bits : Nat) : TaylorPolyPipeline :=
  { coeffs := coeffs
    order := order
    x0 := x0
    DW := data_width
    FB := frac_bits
    latency := order + 1
    dx_r := List.replicate (order + 1) 0
    acc_r := List.replicate (order + 1) 0
    vld_r := List.replicate (order + 1) false }

/-- `TaylorPolyPipeline.reset` (lines 89-92): every stage's `dx` and `acc`
become `0` and `valid` becomes `False`. -/
def TaylorPolyPipeline.reset (p : TaylorPolyPipeline) : TaylorPolyPipeline :=
  { p with
    dx_r := List.replicate (p.order + 1) 0
    acc_r := List.replicate (p.order + 1) 0
    vld_r := List.replicate (p.order + 1) false }

/-- The next-state value `(dx_next[i], acc_next[i], vld_next[i])` computed by
`clock` (lines 108-129) for stage `i`, reading only pre-update registers.
Stage `0`: `dx_next_0 = to_signed(to_unsigned(x_in - x0, DW), DW)`,
`acc_next_0 = coeffs[N]`, `vld_next_0 = valid_in`.  Stage `i ≥ 1`:
`prod = fp_mul_trunc(dx_r[i-1], acc_r[i-1], DW, FB)`,
`acc = to_signed(to_unsigned(coeffs[N-i] + prod, DW), DW)`,
`dx = dx_r[i-1]`, `vld = vld_r[i-1]`.  Out-of-range list indexing is
Python's `IndexError`, modelled by `none`. -/
def TaylorPolyPipeline.nextTriple (p : TaylorPolyPipeline) (valid_in : Bool)
    (x_in : Int) (i : Nat) : Option (Int × Int × Bool) :=
  if i = 0 then
    match p.coeffs[p.order]? with
    | some c => some (to_signed (to_unsigned (x_in - p.x0) p.DW) p.DW, c, valid_in)
    | none => none
  else
    match p.dx_r[i - 1]?, p.acc_r[i - 1]?, p.vld_r[i - 1]?, p.coeffs[p.order - i]? with
    | some dxp, some accp, some vldp, some ck =>
        some (dxp,
              to_signed (to_unsigned (ck + fp_mul_trunc dxp accp p.DW p.FB) p.DW) p.DW,
              vldp)
    | _, _, _, _ => none

/-- `TaylorPolyPipeline.clock` (lines 94-136): compute all next-state values
first (reading only previous-cycle registers), then commit all of them
simultaneously, then return `(vld_r[N], acc_r[N])` of the post-commit state. -/
def TaylorPolyPipeline.clock (p : TaylorPolyPipeline) (valid_in : Bool)
    (x_in : Int) : Option (TaylorPolyPipeline × Bool × Int) :=
  ((List.range (p.order + 1)).mapM (p.nextTriple valid_in x_in)).bind fun ts =>
    let p2 : TaylorPolyPipeline :=
      { p with
        dx_r := ts.map fun t => t.1
        acc_r := ts.map fun t => t.2.1
        vld_r := ts.map fun t => t.2.2 }
    (p2.vld_r[p.order]?).bind fun v =>
      (p2.acc_r[p.order]?).bind fun y =>
        some (p2, v, y)

/-- Run a sequence of `clock` calls, collecting the `(valid_out, y_out)`
pairs; `none` if any call raised. -/
def TaylorPolyPipeline.run (p : TaylorPolyPipeline) :
    List (Bool × Int) → Option (TaylorPolyPipeline × List (Bool × Int))
  | [] => some (p, [])
  | (vin, xin) :: rest =>
    match p.clock vin xin with
    | none => none
    | some (p2, v, y) =>
      match p2.run rest with
      | none => none
      | some (p3, outs) => some (p3, (v, y) :: outs)

/-- Well-formedness of a pipeline state: the register arrays have their
constructed length `order + 1` and the coefficient list is long enough for
the indexing in `clock` to succeed.  `init` establishes it and `clock`
preserves it. -/
def TaylorPolyPipeline.WF (p : TaylorPolyPipeline) : Prop :=
  p.dx_r.length = p.order + 1 ∧ p.acc_r.length = p.order + 1 ∧
  p.vld_r.length = p.order + 1 ∧ p.order < p.coeffs.length

instance (p : TaylorPolyPipeline) : Decidable p.WF := by
  unfold TaylorPolyPipeline.WF; infer_instance

/-- `List.getD` agrees with `getElem?` in range. -/
theorem getD_of_lt {α : Type _} (l : List α) (n : Nat) (d : α) (h : n < l.length) :
    l[n]? = some (l.getD n d) := by
  rw [List.getElem?_eq_getElem h, List.getD_eq_getElem?_getD,
      List.getElem?_eq_getElem h]
  rfl

/-- `mapM` over `Option` of a function that never fails is `map`. -/
theorem mapM_eq_map_of_forall {α β : Type} (f : α → Option β) (g : α → β)
    (l : List α) (h : ∀ a ∈ l, f a = some (g a)) :
    l.mapM f = some (l.map g) := by
  induction l with
  | nil => rfl
  | cons a t ih =>
    rw [List.mapM_cons, h a (List.mem_cons_self a t),
        ih fun b hb => h b (List.mem_cons_of_mem a hb)]
    rfl

/-- Total description of a stage's next value on well-formed states
(defaults can never be hit there). -/
def TaylorPolyPipeline.nextTripleT (p : TaylorPolyPipeline) (valid_in : Bool)
    (x_in : Int) (i : Nat) : Int × Int × Bool :=
  if i = 0 then
    (to_signed (to_unsigned (x_in - p.x0) p.DW) p.DW, p.coeffs.getD p.order 0, valid_in)
  else
    (p.dx_r.getD (i - 1) 0,
     to_signed (to_unsigned (p.coeffs.getD (p.order - i) 0 +
       fp_mul_trunc (p.dx_r.getD (i - 1) 0) (p.acc_r.getD (i - 1) 0) p.DW p.FB) p.DW) p.DW,
     p.vld_r.getD (i - 1) false)

theorem nextTriple_eq (p : TaylorPolyPipeline) (h : p.WF) (vin : Bool) (xin : Int)
    (i : Nat) (hi : i ≤ p.order) :
    p.nextTriple vin xin i = some (p.nextTripleT vin xin i) := by
  obtain ⟨hdx, hacc, hvld, hc⟩ := h
  unfold TaylorPolyPipeline.nextTriple TaylorPolyPipeline.nextTripleT
  by_cases h0 : i = 0
  · subst h0
    rw [if_pos rfl, if_pos rfl, getD_of_lt p.coeffs p.order 0 hc]
  · rw [if_neg h0, if_neg h0,
        getD_of_lt p.dx_r (i - 1) 0 (by omega),
        getD_of_lt p.acc_r (i - 1) 0 (by omega),
        getD_of_lt p.vld_r (i - 1) false (by omega),
        getD_of_lt p.coeffs (p.order - i) 0 (by omega)]

/-- Stage 0's next value is defined whenever the coefficient list is long
enough, regardless of the register arrays. -/
theorem nextTriple_eq_zero (p : TaylorPolyPipeline) (hc : p.order < p.coeffs.length)
    (vin : Bool) (xin : Int) :
    p.nextTriple vin xin 0 = some (p.nextTripleT vin xin 0) := by
  unfold TaylorPolyPipeline.nextTriple TaylorPolyPipeline.nextTripleT
  rw [if_pos rfl, if_pos rfl, getD_of_lt p.coeffs p.order 0 hc]

/-- The post-commit state of a `clock` call on a well-formed pipeline. -/
def TaylorPolyPipeline.commit (p : TaylorPolyPipeline) (valid_in : Bool)
    (x_in : Int) : TaylorPolyPipeline :=
  { p with
    dx_r := (List.range (p.order + 1)).map fun i => (p.nextTripleT valid_in x_in i).1
    acc_r := (List.range (p.order + 1)).map fun i => (p.nextTripleT valid_in x_in i).2.1
    vld_r := (List.range (p.order + 1)).map fun i => (p.nextTripleT valid_in x_in i).2.2 }

/-- `clock` computes `commit` and returns stage `order`'s new valid and
accumulator values, provided every stage's next value is defined. -/
theorem clock_eq_of (p : TaylorPolyPipeline) (vin : Bool) (xin : Int)
    (hall : ∀ i, i ≤ p.order → p.nextTriple vin xin i = some (p.nextTripleT vin xin i)) :
    p.clock vin xin = some (p.commit vin xin,
      (p.nextTripleT vin xin p.order).2.2, (p.nextTripleT vin xin p.order).2.1) := by
  have hmap : (List.range (p.order + 1)).mapM (p.nextTriple vin xin) =
      some ((List.range (p.order + 1)).map (p.nextTripleT vin xin)) :=
    mapM_eq_map_of_forall _ _ _ fun i hi =>
      hall i (by
        have := List.mem_range.mp hi; omega)
  have hlook : ∀ {α : Type} (f : Int × Int × Bool → α),
      (((List.range (p.order + 1)).map (p.nextTripleT vin xin)).map f)[p.order]? =
        some (f (p.nextTripleT vin xin p.order)) := by
    intro α f
    rw [List.getElem?_map, List.getElem?_map,
        List.getElem?_range (Nat.lt_succ_self _)]
    rfl
  unfold TaylorPolyPipeline.clock
  rw [hmap, Option.some_bind]
  dsimp only
  rw [hlook, Option.some_bind, hlook, Option.some_bind]
  unfold TaylorPolyPipeline.commit
  simp [List.map_map, Function.comp]

theorem clock_eq (p : TaylorPolyPipeline) (h : p.WF) (vin : Bool) (xin : Int) :
    p.clock vin xin = some (p.commit vin xin,
      (p.nextTripleT vin xin p.order).2.2, (p.nextTripleT vin xin p.order).2.1) :=
  clock_eq_of p vin xin fun i hi => nextTriple_eq p h vin xin i hi

@[simp] theorem commit_order (p : TaylorPolyPipeline) (vin : Bool) (xin : Int) :
    (p.commit vin xin).order = p.order := rfl

@[simp] theorem commit_coeffs (p : TaylorPolyPipeline) (vin : Bool) (xin : Int) :
    (p.commit vin xin).coeffs = p.coeffs := rfl

@[simp] theorem commit_DW (p : TaylorPolyPipeline) (vin : Bool) (xin : Int) :
    (p.commit vin xin).DW = p.DW := rfl

theorem commit_WF (p : TaylorPolyPipeline) (h : p.WF) (vin : Bool) (xin : Int) :
    (p.commit vin xin).WF := by
  obtain ⟨_, _, _, hc⟩ := h
  exact ⟨by simp [TaylorPolyPipeline.commit], by simp [TaylorPolyPipeline.commit],
         by simp [TaylorPolyPipeline.commit], by simpa using hc⟩

theorem commit_dx_getD (p : TaylorPolyPipeline) (vin : Bool) (xin : Int)
    (i : Nat) (hi : i ≤ p.order) :
    (p.commit vin xin).dx_r.getD i 0 = (p.nextTripleT vin xin i).1 := by
  unfold TaylorPolyPipeline.commit
  rw [List.getD_eq_getElem?_getD, List.getElem?_map,
      List.getElem?_range (by omega : i < p.order + 1)]
  rfl

theorem commit_acc_getD (p : TaylorPolyPipeline) (vin : Bool) (xin : Int)
    (i : Nat) (hi : i ≤ p.order) :
    (p.commit vin xin).acc_r.getD i 0 = (p.nextTripleT vin xin i).2.1 := by
  unfold TaylorPolyPipeline.commit
  rw [List.getD_eq_getElem?_getD, List.getElem?_map,
      List.getElem?_range (by omega : i < p.order + 1)]
  rfl

theorem commit_vld_getD (p : TaylorPolyPipeline) (vin : Bool) (xin : Int)
    (i : Nat) (hi : i ≤ p.order) :
    (p.commit vin xin).vld_r.getD i false = (p.nextTripleT vin xin i).2.2 := by
  unfold TaylorPolyPipeline.commit
  rw [List.getD_eq_getElem?_getD, List.getElem?_map,
      List.getElem?_range (by omega : i < p.order + 1)]
  rfl

/-- Wrapped values lie in the signed `bits`-bit range. -/
theorem wrap_range (v : Int) (bits : Nat) :
    -(2 ^ (bits - 1)) ≤ to_signed (to_unsigned v bits) bits ∧
      to_signed (to_unsigned v bits) bits < 2 ^ (bits - 1) := by
  unfold to_signed to_unsigned
  have hpos : (0 : Int) < 2 ^ bits := pow_pos (by norm_num) bits
  have hu0 : 0 ≤ v % 2 ^ bits := Int.emod_nonneg v (by positivity)
  have hu1 : v % 2 ^ bits < 2 ^ bits := Int.emod_lt_of_pos v hpos
  rcases Nat.eq_zero_or_pos bits with hb | hb
  · subst hb
    simp only [Nat.zero_sub, pow_zero] at *
    split <;> omega
  · have h2 : (2 : Int) ^ bits = 2 ^ (bits - 1) * 2 := by
      rw [← pow_succ]
      congr 1
      omega
    have hp : (0 : Int) < 2 ^ (bits - 1) := pow_pos (by norm_num) _
    split <;> omega

/-- Wrapped values are congruent to the original value modulo `2 ^ bits`:
the wrap is a modular reduction, not a clamp. -/
theorem wrap_emod (v : Int) (bits : Nat) :
    (to_signed (to_unsigned v bits) bits - v) % 2 ^ bits = 0 := by
  unfold to_signed to_unsigned
  have key : (v % 2 ^ bits - v) % 2 ^ bits = 0 := by
    rw [Int.sub_emod, Int.emod_emod_of_dvd v dvd_rfl, sub_self, Int.zero_emod]
  split
  · have harr : v % 2 ^ bits - 2 ^ bits - v = v % 2 ^ bits - v - 2 ^ bits := by ring
    rw [harr, Int.sub_emod, key, Int.emod_self, sub_self, Int.zero_emod]
  · exact key

/-- Python's `>>` on integers is floor division by the power of two
(rounding toward negative infinity). -/
theorem shiftRight_eq_fdiv (m : Int) (n : Nat) :
    m >>> n = Int.fdiv m (2 ^ n) := by
  rw [Int.shiftRight_eq_div_pow, Int.fdiv_eq_ediv m (by positivity : (0 : Int) ≤ 2 ^ n)]
  norm_cast

theorem reset_WF (p : TaylorPolyPipeline) (h : p.order < p.coeffs.length) :
    p.reset.WF :=
  ⟨by simp [TaylorPolyPipeline.reset], by simp [TaylorPolyPipeline.reset],
   by simp [TaylorPolyPipeline.reset], h⟩

theorem reset_vld_getD (p : TaylorPolyPipeline) (i : Nat) :
    p.reset.vld_r.getD i false = false := by
  show (List.replicate (p.order + 1) false).getD i false = false
  rw [List.getD_eq_getElem?_getD, List.getElem?_replicate]
  split <;> rfl

/-- Master lemma for `run` from a well-formed state: it never raises, yields
one output per input, preserves well-formedness, and the valid-out flag of
the `k`-th call is the valid-in flag of call `k - order` (for `k ≥ order`),
else the pre-run register `vld_r[order - (k+1)]`. -/
theorem run_spec (p : TaylorPolyPipeline) (h : p.WF) (ins : List (Bool × Int)) :
    ∃ q outs, p.run ins = some (q, outs) ∧ q.WF ∧ outs.length = ins.length ∧
      ∀ k, k < ins.length →
        (outs.getD k (false, 0)).1 =
          if p.order ≤ k then (ins.getD (k - p.order) (false, 0)).1
          else p.vld_r.getD (p.order - (k + 1)) false := by
  induction ins generalizing p with
  | nil => exact ⟨p, [], rfl, h, rfl, fun k hk => absurd hk (Nat.not_lt_zero k)⟩
  | cons a rest ih =>
    obtain ⟨vin, xin⟩ := a
    have hck := clock_eq p h vin xin
    obtain ⟨q, outs, hrun, hwf, hlen, hout⟩ :=
      ih (p.commit vin xin) (commit_WF p h vin xin)
    refine ⟨q, ((p.nextTripleT vin xin p.order).2.2,
                (p.nextTripleT vin xin p.order).2.1) :: outs,
           ?_, hwf, by simpa using hlen, ?_⟩
    · simp only [TaylorPolyPipeline.run, hck, hrun]
    · intro k hk
      cases k with
      | zero =>
        rw [List.getD_cons_zero]
        by_cases h0 : p.order = 0
        · rw [if_pos (by omega)]
          unfold TaylorPolyPipeline.nextTripleT
          rw [h0, if_pos rfl]
          simp
        · rw [if_neg (by omega)]
          unfold TaylorPolyPipeline.nextTripleT
          rw [if_neg h0]
      | succ k =>
        have hk2 : k < rest.length := by simpa using hk
        have hrec := hout k hk2
        simp only [commit_order] at hrec
        rw [List.getD_cons_succ]
        by_cases hA : p.order ≤ k
        · rw [hrec, if_pos hA, if_pos (by omega)]
          have hidx : k + 1 - p.order = (k - p.order) + 1 := by omega
          rw [hidx, List.getD_cons_succ]
        · rw [hrec, if_neg hA]
          have hle : p.order - (k + 1) ≤ p.order := by omega
          rw [commit_vld_getD p vin xin _ hle]
          by_cases hB : p.order = k + 1
          · unfold TaylorPolyPipeline.nextTripleT
            rw [if_pos (by omega), if_pos (by omega)]
            have hidx : k + 1 - p.order = 0 := by omega
            rw [hidx, List.getD_cons_zero]
          · unfold TaylorPolyPipeline.nextTripleT
            rw [if_neg (by omega), if_neg (by omega)]
            have hidx : p.order - (k + 1) - 1 = p.order - (k + 2) := by omega
            rw [hidx]

@[simp] theorem reset_order (p : TaylorPolyPipeline) : p.reset.order = p.order := rfl

@[simp] theorem reset_coeffs (p : TaylorPolyPipeline) : p.reset.coeffs = p.coeffs := rfl

@[simp] theorem init_order (coeffs : List Int) (order : Nat) (x0 : Int)
    (dw fb : Nat) : (TaylorPolyPipeline.init coeffs order x0 dw fb).order = order := rfl

theorem getD_replicate {α : Type _} (n : Nat) (a d : α) (i : Nat) :
    (List.replicate n a).getD i d = if i < n then a else d := by
  rw [List.getD_eq_getElem?_getD, List.getElem?_replicate]
  split <;> rfl

/-- Signed `bits`-bit representability: `v ∈ [-2^(bits-1), 2^(bits-1) - 1]`. -/
def inRange (v : Int) (bits : Nat) : Prop :=
  -(2 ^ (bits - 1)) ≤ v ∧ v < 2 ^ (bits - 1)

theorem zero_inRange (bits : Nat) : inRange 0 bits := by
  have hp : (0 : Int) < 2 ^ (bits - 1) := pow_pos (by norm_num) _
  exact ⟨by omega, hp⟩

/-- All register entries (with out-of-range reads defaulting to the
representable value `0`) are representable signed `DW`-bit values. -/
def TaylorPolyPipeline.RegsInRange (p : TaylorPolyPipeline) : Prop :=
  ∀ i, inRange (p.dx_r.getD i 0) p.DW ∧ inRange (p.acc_r.getD i 0) p.DW

theorem getD_of_le {α : Type _} (l : List α) (n : Nat) (d : α) (h : l.length ≤ n) :
    l.getD n d = d := by
  rw [List.getD_eq_getElem?_getD, List.getElem?_eq_none h]
  rfl

theorem commit_dx_length (p : TaylorPolyPipeline) (vin : Bool) (xin : Int) :
    (p.commit vin xin).dx_r.length = p.order + 1 := by
  simp [TaylorPolyPipeline.commit]

theorem commit_acc_length (p : TaylorPolyPipeline) (vin : Bool) (xin : Int) :
    (p.commit vin xin).acc_r.length = p.order + 1 := by
  simp [TaylorPolyPipeline.commit]

/-- A commit from a state with representable registers and representable
coefficients yields representable registers. -/
theorem commit_RegsInRange (p : TaylorPolyPipeline) (h : p.WF)
    (hc : ∀ c ∈ p.coeffs, inRange c p.DW) (hr : p.RegsInRange)
    (vin : Bool) (xin : Int) :
    (p.commit vin xin).RegsInRange := by
  intro i
  show inRange ((p.commit vin xin).dx_r.getD i 0) p.DW ∧
       inRange ((p.commit vin xin).acc_r.getD i 0) p.DW
  by_cases hi : i ≤ p.order
  · rw [commit_dx_getD p vin xin i hi, commit_acc_getD p vin xin i hi]
    unfold TaylorPolyPipeline.nextTripleT
    by_cases h0 : i = 0
    · subst h0
      refine ⟨⟨(wrap_range _ _).1, (wrap_range _ _).2⟩, ?_⟩
      have hmem : p.coeffs.getD p.order 0 ∈ p.coeffs := by
        have hlt : p.order < p.coeffs.length := h.2.2.2
        rw [List.getD_eq_getElem?_getD, List.getElem?_eq_getElem hlt]
        exact List.getElem_mem hlt
      exact hc _ hmem
    · rw [if_neg h0]
      exact ⟨(hr (i - 1)).1, ⟨(wrap_range _ _).1, (wrap_range _ _).2⟩⟩
  · rw [getD_of_le _ _ _ (by rw [commit_dx_length]; omega),
        getD_of_le _ _ _ (by rw [commit_acc_length]; omega)]
    exact ⟨zero_inRange _, zero_inRange _⟩

/-- Running any input sequence from a well-formed state with representable
coefficients and registers keeps all registers representable and produces
only representable outputs. -/
theorem run_RegsInRange (p : TaylorPolyPipeline) (h : p.WF)
    (hc : ∀ c ∈ p.coeffs, inRange c p.DW) (hr : p.RegsInRange)
    (ins : List (Bool × Int)) :
    ∃ q outs, p.run ins = some (q, outs) ∧ q.RegsInRange ∧
      ∀ o ∈ outs, inRange o.2 p.DW := by
  induction ins generalizing p with
  | nil => exact ⟨p, [], rfl, hr, by simp⟩
  | cons a rest ih =>
    obtain ⟨vin, xin⟩ := a
    have hck := clock_eq p h vin xin
    have hr2 := commit_RegsInRange p h hc hr vin xin
    obtain ⟨q, outs, hrun, hq, hout⟩ :=
      ih (p.commit vin xin) (commit_WF p h vin xin) hc hr2
    refine ⟨q, ((p.nextTripleT vin xin p.order).2.2,
                (p.nextTripleT vin xin p.order).2.1) :: outs,
           by simp only [TaylorPolyPipeline.run, hck, hrun], hq, ?_⟩
    intro o ho
    rcases List.mem_cons.mp ho with rfl | ho2
    · show inRange (p.nextTripleT vin xin p.order).2.1 p.DW
      rw [← commit_acc_getD p vin xin p.order le_rfl]
      exact (hr2 p.order).2
    · exact hout o ho2

/-- C1: for every evaluator in a well-formed state and every call
`clock(validIn, xIn)`, the post-commit state `q` satisfies: stage 0 holds
`dx = to_signed(to_unsigned(xIn - x0, DW), DW)`, `acc = coeffs[order]`,
`valid = validIn`; every stage `i ∈ [1, order]` is computed from stage
`i-1`'s pre-update values as `dx[i] = dx[i-1]`, `valid[i] = valid[i-1]`,
`acc[i] = to_signed(to_unsigned(coeffs[order-i] + fp_mul_trunc(dx[i-1],
acc[i-1], DW, FB), DW), DW)`; and the call returns
`(valid[order], acc[order])` of the post-commit state. -/
theorem clock_functional_spec (p : TaylorPolyPipeline) (h : p.WF)
    (vin : Bool) (xin : Int) :
    ∃ q vout yout, p.clock vin xin = some (q, vout, yout) ∧
      q.dx_r.getD 0 0 = to_signed (to_unsigned (xin - p.x0) p.DW) p.DW ∧
      q.acc_r.getD 0 0 = p.coeffs.getD p.order 0 ∧
      q.vld_r.getD 0 false = vin ∧
      (∀ i, 1 ≤ i → i ≤ p.order →
        q.dx_r.getD i 0 = p.dx_r.getD (i - 1) 0 ∧
        q.vld_r.getD i false = p.vld_r.getD (i - 1) false ∧
        q.acc_r.getD i 0 =
          to_signed (to_unsigned (p.coeffs.getD (p.order - i) 0 +
            fp_mul_trunc (p.dx_r.getD (i - 1) 0) (p.acc_r.getD (i - 1) 0)
              p.DW p.FB) p.DW) p.DW) ∧
      vout = q.vld_r.getD p.order false ∧
      yout = q.acc_r.getD p.order 0 := by
  refine ⟨p.commit vin xin, _, _, clock_eq p h vin xin, ?_, ?_, ?_, ?_, ?_, ?_⟩
  · rw [commit_dx_getD p vin xin 0 (Nat.zero_le _)]
    rfl
  · rw [commit_acc_getD p vin xin 0 (Nat.zero_le _)]
    rfl
  · rw [commit_vld_getD p vin xin 0 (Nat.zero_le _)]
    rfl
  · intro i h1 hi
    rw [commit_dx_getD p vin xin i hi, commit_acc_getD p vin xin i hi,
        commit_vld_getD p vin xin i hi]
    unfold TaylorPolyPipeline.nextTripleT
    rw [if_neg (by omega : ¬ i = 0)]
    exact ⟨rfl, rfl, rfl⟩
  · exact (commit_vld_getD p vin xin p.order le_rfl).symm
  · exact (commit_acc_getD p vin xin p.order le_rfl).symm

/-- Witness for C1 at a concrete evaluator and call. -/
theorem clock_functional_spec_witness :
    ∃ q vout yout,
      (TaylorPolyPipeline.init [1, 2, 3] 2 0 32 16).clock true 5 =
        some (q, vout, yout) ∧
      q.dx_r.getD 0 0 =
        to_signed (to_unsigned (5 - (TaylorPolyPipeline.init [1, 2, 3] 2 0 32 16).x0)
          (TaylorPolyPipeline.init [1, 2, 3] 2 0 32 16).DW)
          (TaylorPolyPipeline.init [1, 2, 3] 2 0 32 16).DW ∧
      q.acc_r.getD 0 0 = (TaylorPolyPipeline.init [1, 2, 3] 2 0 32 16).coeffs.getD
        (TaylorPolyPipeline.init [1, 2, 3] 2 0 32 16).order 0 ∧
      q.vld_r.getD 0 false = true ∧
      (∀ i, 1 ≤ i → i ≤ (TaylorPolyPipeline.init [1, 2, 3] 2 0 32 16).order →
        q.dx_r.getD i 0 =
          (TaylorPolyPipeline.init [1, 2, 3] 2 0 32 16).dx_r.getD (i - 1) 0 ∧
        q.vld_r.getD i false =
          (TaylorPolyPipeline.init [1, 2, 3] 2 0 32 16).vld_r.getD (i - 1) false ∧
        q.acc_r.getD i 0 =
          to_signed (to_unsigned
            ((TaylorPolyPipeline.init [1, 2, 3] 2 0 32 16).coeffs.getD
              ((TaylorPolyPipeline.init [1, 2, 3] 2 0 32 16).order - i) 0 +
            fp_mul_trunc
              ((TaylorPolyPipeline.init [1, 2, 3] 2 0 32 16).dx_r.getD (i - 1) 0)
              ((TaylorPolyPipeline.init [1, 2, 3] 2 0 32 16).acc_r.getD (i - 1) 0)
              (TaylorPolyPipeline.init [1, 2, 3] 2 0 32 16).DW
              (TaylorPolyPipeline.init [1, 2, 3] 2 0 32 16).FB)
            (TaylorPolyPipeline.init [1, 2, 3] 2 0 32 16).DW)
            (TaylorPolyPipeline.init [1, 2, 3] 2 0 32 16).DW) ∧
      vout = q.vld_r.getD (TaylorPolyPipeline.init [1, 2, 3] 2 0 32 16).order false ∧
      yout = q.acc_r.getD (TaylorPolyPipeline.init [1, 2, 3] 2 0 32 16).order 0 :=
  clock_functional_spec (TaylorPolyPipeline.init [1, 2, 3] 2 0 32 16)
    (by decide) true 5

/-- C2: for all signed `dataWidth`-bit values `a` and `b`, `fp_mul_trunc`
equals the exact arbitrary-precision formula: floor the exact product shifted
by `fracBits` toward negative infinity (`Int.fdiv` by `2 ^ fracBits`), mask
to `dataWidth` bits, reinterpret as signed.  No rounding, no saturation. -/
theorem fp_mul_trunc_exact (a b : Int) (dw fb : Nat)
    (ha1 : -(2 ^ (dw - 1)) ≤ a) (ha2 : a < 2 ^ (dw - 1))
    (hb1 : -(2 ^ (dw - 1)) ≤ b) (hb2 : b < 2 ^ (dw - 1)) :
    fp_mul_trunc a b dw fb =
      to_signed (to_unsigned (Int.fdiv (a * b) (2 ^ fb)) dw) dw := by
  unfold fp_mul_trunc
  rw [shiftRight_eq_fdiv]

/-- Witness for C2 at concrete representable operands. -/
theorem fp_mul_trunc_exact_witness :
    (-(2 ^ (8 - 1) : Int) ≤ -3 ∧ (-3 : Int) < 2 ^ (8 - 1)) ∧
    fp_mul_trunc (-3) 5 8 2 =
      to_signed (to_unsigned (Int.fdiv ((-3) * 5) (2 ^ 2)) 8) 8 :=
  ⟨⟨by decide, by decide⟩,
   fp_mul_trunc_exact (-3) 5 8 2 (by decide) (by decide) (by decide) (by decide)⟩

/-- C3: from the reset state the valid-in flag propagates through the
`order + 1` stages like a shift register: the output of clock call `k`
(0-indexed; the value registered at the `(k+1)`-th clock edge, i.e. exactly
`order + 1` edges after the call-`k - order` input was presented) is valid
iff the input of call `k - order` was valid, and calls `k < order` return
invalid.  In particular one valid call followed by `order + 1` invalid calls
yields exactly one valid output, at call `order`. -/
theorem latency_property (p : TaylorPolyPipeline)
    (h : p.order < p.coeffs.length) :
    (∀ ins : List (Bool × Int), ∃ q outs,
        p.reset.run ins = some (q, outs) ∧ outs.length = ins.length ∧
        ∀ k, k < ins.length →
          (outs.getD k (false, 0)).1 =
            if p.order ≤ k then (ins.getD (k - p.order) (false, 0)).1
            else false) ∧
    (∀ x : Int, ∃ q outs,
        p.reset.run ((true, x) :: List.replicate (p.order + 1) (false, 0)) =
          some (q, outs) ∧
        ∀ k, k < p.order + 2 →
          ((outs.getD k (false, 0)).1 = true ↔ k = p.order)) := by
  have main : ∀ ins : List (Bool × Int), ∃ q outs,
      p.reset.run ins = some (q, outs) ∧ outs.length = ins.length ∧
      ∀ k, k < ins.length →
        (outs.getD k (false, 0)).1 =
          if p.order ≤ k then (ins.getD (k - p.order) (false, 0)).1
          else false := by
    intro ins
    obtain ⟨q, outs, hrun, _, hlen, hout⟩ := run_spec p.reset (reset_WF p h) ins
    refine ⟨q, outs, hrun, hlen, ?_⟩
    intro k hk
    have hmain := hout k hk
    simp only [reset_order] at hmain
    rw [hmain]
    by_cases hcase : p.order ≤ k
    · rw [if_pos hcase, if_pos hcase]
    · rw [if_neg hcase, if_neg hcase, reset_vld_getD]
  refine ⟨main, ?_⟩
  intro x
  obtain ⟨q, outs, hrun, hlen, hout⟩ :=
    main ((true, x) :: List.replicate (p.order + 1) (false, 0))
  refine ⟨q, outs, hrun, ?_⟩
  intro k hk
  have hlen2 : ((true, x) :: List.replicate (p.order + 1) (false, 0)).length =
      p.order + 2 := by simp
  have hported := hout k (by omega)
  rw [hported]
  by_cases hcase : p.order ≤ k
  · by_cases heq : k = p.order
    · rw [if_pos hcase]
      have h0 : k - p.order = 0 := by omega
      rw [h0, List.getD_cons_zero]
      simp [heq]
    · rw [if_pos hcase]
      have h1 : k - p.order = (k - p.order - 1) + 1 := by omega
      rw [h1, List.getD_cons_succ, getD_replicate]
      rw [if_pos (by omega)]
      simp [heq]
  · rw [if_neg hcase]
    simp
    omega

/-- Witness for C3: an order-1 evaluator, pulse input. -/
theorem latency_property_witness :
    ∃ q outs,
      (TaylorPolyPipeline.init [1, 2] 1 0 32 16).reset.run
        ((true, 7) :: List.replicate 2 (false, 0)) = some (q, outs) ∧
      ∀ k, k < 3 → ((outs.getD k (false, 0)).1 = true ↔ k = 1) :=
  (latency_property (TaylorPolyPipeline.init [1, 2] 1 0 32 16) (by decide)).2 7

/-- C4: the f(x) = x² scenario of the built-in test (order 2, x0 = 0,
coefficients c0 = 0, c1 = 0, c2 = 65536 = 1.0 in Q16.16, Q16.16 format):
presenting the valid input 196608 (3.0) from the reset (= freshly
constructed) state, the first two clock calls return invalid outputs and
the third call — 3 cycles of latency — returns exactly `(true, 589824)`
(9.0), with zero tolerance. -/
theorem horner_square_scenario :
    ((TaylorPolyPipeline.init [0, 0, 65536, 0, 0, 0, 0, 0] 2 0 32 16).run
      [(true, 196608), (false, 0), (false, 0)]).map (fun r => r.2) =
      some [(false, 0), (false, 0), (true, 589824)] := by decide

/-- C5 (construction is not validated): `__init__` silently accepts a
coefficient list shorter than `order + 1` — here the empty list with
order 0 — and returns an ordinary instance (`latency` already set); the
violation only surfaces later as an `IndexError` (modelled `none`) on the
first `clock` call.  Nothing fails fast at construction time. -/
theorem construction_unchecked :
    (TaylorPolyPipeline.init [] 0 0 32 16).latency = 1 ∧
    (TaylorPolyPipeline.init [] 0 0 32 16).coeffs = [] ∧
    (TaylorPolyPipeline.init [] 0 0 32 16).clock true 0 = none := by
  refine ⟨rfl, rfl, ?_⟩
  decide

/-- C6: every arithmetic result committed by a clock call — the stage-0
subtraction `xIn - x0` and every stage's accumulator sum
`coeffs[order-i] + prod` — is stored as the unique value congruent to the
exact result modulo `2 ^ DW` lying in the signed `DW`-bit range: wrapping,
never saturation or clamping (a clamp of an out-of-range value would break
the congruence). -/
theorem wraparound_not_saturation (p : TaylorPolyPipeline) (h : p.WF)
    (vin : Bool) (xin : Int) :
    ∃ q vout yout, p.clock vin xin = some (q, vout, yout) ∧
      ((q.dx_r.getD 0 0 - (xin - p.x0)) % 2 ^ p.DW = 0 ∧
       -(2 ^ (p.DW - 1)) ≤ q.dx_r.getD 0 0 ∧
       q.dx_r.getD 0 0 < 2 ^ (p.DW - 1)) ∧
      ∀ i, 1 ≤ i → i ≤ p.order →
        (q.acc_r.getD i 0 - (p.coeffs.getD (p.order - i) 0 +
            fp_mul_trunc (p.dx_r.getD (i - 1) 0) (p.acc_r.getD (i - 1) 0)
              p.DW p.FB)) % 2 ^ p.DW = 0 ∧
        -(2 ^ (p.DW - 1)) ≤ q.acc_r.getD i 0 ∧
        q.acc_r.getD i 0 < 2 ^ (p.DW - 1) := by
  refine ⟨p.commit vin xin, _, _, clock_eq p h vin xin, ?_, ?_⟩
  · rw [commit_dx_getD p vin xin 0 (Nat.zero_le _)]
    exact ⟨wrap_emod _ _, (wrap_range _ _).1, (wrap_range _ _).2⟩
  · intro i h1 hi
    rw [commit_acc_getD p vin xin i hi]
    unfold TaylorPolyPipeline.nextTripleT
    rw [if_neg (by omega : ¬ i = 0)]
    exact ⟨wrap_emod _ _, (wrap_range _ _).1, (wrap_range _ _).2⟩

/-- Witness for C6: a concrete well-formed evaluator and call. -/
theorem wraparound_not_saturation_witness :
    ∃ q vout yout,
      (TaylorPolyPipeline.init [3, 9] 1 2 8 4).clock true 300 =
        some (q, vout, yout) ∧
      ((q.dx_r.getD 0 0 - (300 - (TaylorPolyPipeline.init [3, 9] 1 2 8 4).x0))
          % 2 ^ (TaylorPolyPipeline.init [3, 9] 1 2 8 4).DW = 0 ∧
       -(2 ^ ((TaylorPolyPipeline.init [3, 9] 1 2 8 4).DW - 1)) ≤ q.dx_r.getD 0 0 ∧
       q.dx_r.getD 0 0 < 2 ^ ((TaylorPolyPipeline.init [3, 9] 1 2 8 4).DW - 1)) ∧
      ∀ i, 1 ≤ i → i ≤ (TaylorPolyPipeline.init [3, 9] 1 2 8 4).order →
        (q.acc_r.getD i 0 -
          ((TaylorPolyPipeline.init [3, 9] 1 2 8 4).coeffs.getD
            ((TaylorPolyPipeline.init [3, 9] 1 2 8 4).order - i) 0 +
           fp_mul_trunc
             ((TaylorPolyPipeline.init [3, 9] 1 2 8 4).dx_r.getD (i - 1) 0)
             ((TaylorPolyPipeline.init [3, 9] 1 2 8 4).acc_r.getD (i - 1) 0)
             (TaylorPolyPipeline.init [3, 9] 1 2 8 4).DW
             (TaylorPolyPipeline.init [3, 9] 1 2 8 4).FB))
          % 2 ^ (TaylorPolyPipeline.init [3, 9] 1 2 8 4).DW = 0 ∧
        -(2 ^ ((TaylorPolyPipeline.init [3, 9] 1 2 8 4).DW - 1)) ≤
          q.acc_r.getD i 0 ∧
        q.acc_r.getD i 0 < 2 ^ ((TaylorPolyPipeline.init [3, 9] 1 2 8 4).DW - 1) :=
  wraparound_not_saturation (TaylorPolyPipeline.init [3, 9] 1 2 8 4)
    (by decide) true 300

/-- C7: `reset()` in any state clears every stage's valid flag; the next
`order` clock calls, whatever their arguments, all return
`validOut = false` — the validity of all pre-reset in-flight data is
discarded. -/
theorem reset_discards_validity (p : TaylorPolyPipeline)
    (h : p.order < p.coeffs.length)
    (ins : List (Bool × Int)) (hlen : ins.length ≤ p.order) :
    p.reset.vld_r = List.replicate (p.order + 1) false ∧
    ∃ q outs, p.reset.run ins = some (q, outs) ∧ ∀ o ∈ outs, o.1 = false := by
  refine ⟨rfl, ?_⟩
  obtain ⟨q, outs, hrun, _, hlenq, hout⟩ := run_spec p.reset (reset_WF p h) ins
  refine ⟨q, outs, hrun, ?_⟩
  intro o ho
  obtain ⟨k, hk, rfl⟩ := List.mem_iff_getElem.mp ho
  have hk2 : k < ins.length := by omega
  have hval := hout k hk2
  simp only [reset_order] at hval
  rw [if_neg (by omega : ¬ p.order ≤ k), reset_vld_getD] at hval
  have hg : outs.getD k (false, 0) = outs[k] := by
    rw [List.getD_eq_getElem?_getD, List.getElem?_eq_getElem hk]
    rfl
  rw [hg] at hval
  exact hval

/-- Witness for C7: order-2 evaluator, two post-reset calls with valid
inputs still produce invalid outputs. -/
theorem reset_discards_validity_witness :
    (TaylorPolyPipeline.init [1, 2, 3] 2 0 32 16).reset.vld_r =
      List.replicate 3 false ∧
    ∃ q outs,
      (TaylorPolyPipeline.init [1, 2, 3] 2 0 32 16).reset.run
        [(true, 9), (true, 8)] = some (q, outs) ∧
      ∀ o ∈ outs, o.1 = false :=
  reset_discards_validity (TaylorPolyPipeline.init [1, 2, 3] 2 0 32 16)
    (by decide) [(true, 9), (true, 8)] (by decide)

/-- C8: an evaluator constructed with `order = 0` has `latency = 1`, and a
single `clock(true, x)` call — from any state whatsoever of an order-0
evaluator with a nonempty coefficient list — returns `(true, coeffs[0])`:
the output is `c0`, involves no multiply, and is independent of `x`. -/
theorem order_zero_degenerate (coeffs : List Int) (x0 : Int) (dw fb : Nat)
    (hne : coeffs ≠ []) :
    (TaylorPolyPipeline.init coeffs 0 x0 dw fb).latency = 1 ∧
    ∀ (p : TaylorPolyPipeline), p.order = 0 → p.coeffs = coeffs → ∀ x : Int,
      ∃ q, p.clock true x = some (q, true, coeffs.getD 0 0) := by
  refine ⟨rfl, ?_⟩
  intro p h0 hcs x
  have hlen : p.order < p.coeffs.length := by
    rw [h0, hcs]
    cases coeffs with
    | nil => exact absurd rfl hne
    | cons c cs => simp
  have hall : ∀ i, i ≤ p.order →
      p.nextTriple true x i = some (p.nextTripleT true x i) := by
    intro i hi
    have : i = 0 := by omega
    subst this
    exact nextTriple_eq_zero p hlen true x
  refine ⟨p.commit true x, ?_⟩
  rw [clock_eq_of p true x hall]
  unfold TaylorPolyPipeline.nextTripleT
  rw [h0, if_pos rfl, hcs]

/-- Witness for C8: a one-coefficient evaluator with deliberately odd
register contents still returns `(true, c0)`. -/
theorem order_zero_degenerate_witness :
    (TaylorPolyPipeline.init [7] 0 0 32 16).latency = 1 ∧
    ∀ (p : TaylorPolyPipeline), p.order = 0 → p.coeffs = [7] → ∀ x : Int,
      ∃ q, p.clock true x = some (q, true, ([7] : List Int).getD 0 0) :=
  order_zero_degenerate [7] 0 32 16 (by decide)

theorem zip_getD_fst (vs : List Bool) (xs : List Int)
    (hx : xs.length = vs.length) (j : Nat) (hj : j < vs.length) :
    ((vs.zip xs).getD j (false, 0)).1 = vs.getD j false := by
  have hlz : (vs.zip xs).length = vs.length := by
    rw [List.length_zip, hx]
    exact Nat.min_self _
  have hj2 : j < (vs.zip xs).length := by omega
  rw [List.getD_eq_getElem?_getD, List.getElem?_eq_getElem hj2]
  show ((vs.zip xs)[j]).1 = vs.getD j false
  rw [List.getElem_zip]
  rw [List.getD_eq_getElem?_getD, List.getElem?_eq_getElem hj]
  rfl

/-- C9: the sequence of valid-out flags depends only on the valid-in
sequence and the order.  Two evaluators of the same order, run from their
reset states on the same valid-in sequence but with arbitrary different
data inputs, coefficients, expansion points, data widths and fraction
widths, return identical valid-out sequences. -/
theorem validout_noninterference (order : Nat) (c1 c2 : List Int)
    (x01 x02 : Int) (dw1 dw2 fb1 fb2 : Nat)
    (h1 : order < c1.length) (h2 : order < c2.length)
    (vs : List Bool) (xs1 xs2 : List Int)
    (hx1 : xs1.length = vs.length) (hx2 : xs2.length = vs.length) :
    ∃ q1 outs1 q2 outs2,
      (TaylorPolyPipeline.init c1 order x01 dw1 fb1).reset.run (vs.zip xs1) =
        some (q1, outs1) ∧
      (TaylorPolyPipeline.init c2 order x02 dw2 fb2).reset.run (vs.zip xs2) =
        some (q2, outs2) ∧
      outs1.map Prod.fst = outs2.map Prod.fst := by
  have hz1 : (vs.zip xs1).length = vs.length := by
    rw [List.length_zip, hx1]
    exact Nat.min_self _
  have hz2 : (vs.zip xs2).length = vs.length := by
    rw [List.length_zip, hx2]
    exact Nat.min_self _
  obtain ⟨q1, outs1, hrun1, _, hlen1, hout1⟩ :=
    run_spec (TaylorPolyPipeline.init c1 order x01 dw1 fb1).reset
      (reset_WF _ h1) (vs.zip xs1)
  obtain ⟨q2, outs2, hrun2, _, hlen2, hout2⟩ :=
    run_spec (TaylorPolyPipeline.init c2 order x02 dw2 fb2).reset
      (reset_WF _ h2) (vs.zip xs2)
  refine ⟨q1, outs1, q2, outs2, hrun1, hrun2, ?_⟩
  have hsame : ∀ k, k < vs.length →
      (outs1.getD k (false, 0)).1 = (outs2.getD k (false, 0)).1 := by
    intro k hk
    have e1 := hout1 k (by omega)
    have e2 := hout2 k (by omega)
    simp only [reset_order, init_order] at e1 e2
    rw [e1, e2]
    by_cases hcase : order ≤ k
    · rw [if_pos hcase, if_pos hcase,
          zip_getD_fst vs xs1 hx1 (k - order) (by omega),
          zip_getD_fst vs xs2 hx2 (k - order) (by omega)]
    · rw [if_neg hcase, if_neg hcase, reset_vld_getD, reset_vld_getD]
  have hL1 : outs1.length = vs.length := by omega
  have hL2 : outs2.length = vs.length := by omega
  apply List.ext_getElem (by rw [List.length_map, List.length_map, hL1, hL2])
  intro n hn1 hn2
  rw [List.length_map] at hn1
  have hn : n < vs.length := by omega
  have hg1 : outs1.getD n (false, 0) = outs1[n] := by
    rw [List.getD_eq_getElem?_getD, List.getElem?_eq_getElem (by omega : n < outs1.length)]
    rfl
  have hg2 : outs2.getD n (false, 0) = outs2[n] := by
    rw [List.getD_eq_getElem?_getD, List.getElem?_eq_getElem (by omega : n < outs2.length)]
    rfl
  have := hsame n hn
  rw [hg1, hg2] at this
  simpa using this

/-- Witness for C9: same valid-in sequence, very different everything else. -/
theorem validout_noninterference_witness :
    ∃ q1 outs1 q2 outs2,
      (TaylorPolyPipeline.init [1, 2] 1 0 32 16).reset.run
        ([true, false, true].zip [5, 6, 7]) = some (q1, outs1) ∧
      (TaylorPolyPipeline.init [3, 4, 5] 1 9 8 4).reset.run
        ([true, false, true].zip [100, 200, 300]) = some (q2, outs2) ∧
      outs1.map Prod.fst = outs2.map Prod.fst :=
  validout_noninterference 1 [1, 2] [3, 4, 5] 0 9 32 8 16 4
    (by decide) (by decide) [true, false, true] [5, 6, 7] [100, 200, 300]
    (by decide) (by decide)

/-- C10: if every coefficient lies in the signed `DW`-bit range, then the
freshly constructed (= reset) state has all `dx` and `acc` registers in
that range, and so does every state reached by any sequence of clock calls;
consequently every returned `yOut` is a representable signed `DW`-bit
integer. -/
theorem registers_in_range (coeffs : List Int) (order : Nat) (x0 : Int)
    (dw fb : Nat) (hlen : order < coeffs.length)
    (hc : ∀ c ∈ coeffs, inRange c dw) (ins : List (Bool × Int)) :
    (TaylorPolyPipeline.init coeffs order x0 dw fb).RegsInRange ∧
    ∃ q outs,
      (TaylorPolyPipeline.init coeffs order x0 dw fb).run ins = some (q, outs) ∧
      q.RegsInRange ∧ ∀ o ∈ outs, inRange o.2 dw := by
  have hinit : (TaylorPolyPipeline.init coeffs order x0 dw fb).RegsInRange := by
    intro i
    show inRange ((List.replicate (order + 1) (0 : Int)).getD i 0) dw ∧
         inRange ((List.replicate (order + 1) (0 : Int)).getD i 0) dw
    rw [getD_replicate]
    split <;> exact ⟨zero_inRange dw, zero_inRange dw⟩
  have hWF : (TaylorPolyPipeline.init coeffs order x0 dw fb).WF :=
    ⟨by simp [TaylorPolyPipeline.init], by simp [TaylorPolyPipeline.init],
     by simp [TaylorPolyPipeline.init], hlen⟩
  exact ⟨hinit, run_RegsInRange _ hWF hc hinit ins⟩

/-- Witness for C10: an 8-bit evaluator with in-range coefficients, run on
inputs that overflow freely. -/
theorem registers_in_range_witness :
    (TaylorPolyPipeline.init [100, -100] 1 0 8 4).RegsInRange ∧
    ∃ q outs,
      (TaylorPolyPipeline.init [100, -100] 1 0 8 4).run
        [(true, 1000), (true, -1000)] = some (q, outs) ∧
      q.RegsInRange ∧ ∀ o ∈ outs, inRange o.2 8 :=
  registers_in_range [100, -100] 1 0 8 4 (by decide)
    (by intro c hcm
        rcases List.mem_cons.mp hcm with rfl | hcm2
        · exact ⟨by decide, by decide⟩
        · rcases List.mem_cons.mp hcm2 with rfl | hcm3
          · exact ⟨by decide, by decide⟩
          · cases hcm3)
    [(true, 1000), (true, -1000)]
